import Mathlib

/-!
Verification of the dependency-resolution and scoped installation-state
reconciliation engine of the sleuth-io/skills repository.

The shallow embedding below translates the Go data model and operations into
Lean. Operations whose Go source is present in the repository snapshot
(`internal/clients/orchestrator.go`, the install command in
`internal/commands`) are translated directly from that source. Operations
whose implementation file is absent from the snapshot (the scope matcher,
the dependency resolver, the installation tracker methods and the lock-file
model: only their tests and callers are present) are modelled from the
specification; each such definition says so in its doc comment.
-/

namespace Skills

/-- Scope kind of a working context or install scope. Go represents this as
the strings "global", "repo" and "path" (`scope.Scope.Type`,
`clients.ScopeType`); modelled as an enumeration. -/
inductive ScopeKind where
  | global
  | repo
  | path
deriving DecidableEq, Repr

/-- Artifact type enumeration (`internal/asset.Type`): skill, agent, command,
hook, mcp, mcp-remote. -/
inductive AType where
  | skill
  | agent
  | command
  | hook
  | mcp
  | mcpRemote
deriving DecidableEq, Repr

/-- A dependency reference in a lock-file artifact (`lockfile.Dependency`):
a reference by name only. -/
structure Dependency where
  name : String
deriving DecidableEq, Repr

/-- A scope entry declared on a lock-file artifact (`lockfile.Scope`): a
repository URL plus an optional list of paths inside that repository.
Empty `paths` means the entry scopes the artifact to the whole repository. -/
structure ScopeEntry where
  repo : String
  paths : List String
deriving DecidableEq, Repr

/-- A lock-file artifact (`lockfile.Artifact`): name, semantic version,
type, dependency references and declared scopes. The source variants
(HTTP/Git/local) do not participate in resolution, scope matching or
tracking and are omitted from the embedding. -/
structure Artifact where
  name : String
  version : String
  artifactType : AType
  dependencies : List Dependency
  scopes : List ScopeEntry
deriving DecidableEq, Repr

/-- Modelled from the spec: `lockfile.Artifact.IsGlobal` (implementation file
absent; pinned by `TestAssetScopes`): an artifact is global exactly when its
scope list is empty. -/
def Artifact.IsGlobal (a : Artifact) : Bool :=
  a.scopes.isEmpty

/-- The dependency names of an artifact, in declaration order. -/
def Artifact.depNames (a : Artifact) : List String :=
  a.dependencies.map Dependency.name

/-- A lock file (`lockfile.LockFile`): the validated list of artifacts.
Header fields (lock-version, created-by) do not affect the modelled
operations. -/
structure LockFile where
  artifacts : List Artifact
deriving DecidableEq, Repr

/-- Modelled from the spec: lookup of an artifact by name in the full lock
file ("looked up by name in the full lock file", §4.2); first artifact whose
name matches. -/
def findArtifactByName (L : LockFile) (n : String) : Option Artifact :=
  L.artifacts.find? (fun a => decide (a.name = n))

/-- The current working context used by the scope matcher
(`internal/scope.Scope`): context kind plus repository URL and path relative
to the repository root when applicable. -/
structure CtxScope where
  stype : ScopeKind
  repoURL : String
  repoPath : String
deriving DecidableEq, Repr

/-- Modelled from the spec: the per-entry test inside
`scope.Matcher.MatchesAsset` (implementation file absent; pinned by
`TestMatchesAsset`). An entry with empty `paths` is a repo-scope entry and
matches any context inside that repository (context kind repo or path with
the same repository URL); an entry with non-empty `paths` is a path-scope
entry and matches only a path context in the same repository whose relative
path equals one of the declared paths exactly. -/
def scopeEntryMatches (ctx : CtxScope) (s : ScopeEntry) : Bool :=
  if s.paths.isEmpty then
    (decide (ctx.stype = ScopeKind.repo) || decide (ctx.stype = ScopeKind.path))
      && decide (ctx.repoURL = s.repo)
  else
    decide (ctx.stype = ScopeKind.path)
      && decide (ctx.repoURL = s.repo)
      && decide (ctx.repoPath ∈ s.paths)

/-- Modelled from the spec: `scope.Matcher.MatchesAsset` (implementation
file absent; pinned by `TestMatchesAsset`). An artifact with no scope
entries is global and matches every context; otherwise the artifact matches
when some scope entry matches the context. -/
def MatchesAsset (ctx : CtxScope) (a : Artifact) : Bool :=
  if a.scopes.isEmpty then true
  else a.scopes.any (scopeEntryMatches ctx)

/-- C7: `MatchesAsset` returns true for every asset whose scopes list is
empty, in every caller context (global, any repository, any path):
globality is absorbing. -/
theorem matchesAsset_global_absorbing (ctx : CtxScope) (a : Artifact)
    (h : a.scopes = []) : MatchesAsset ctx a = true := by
  simp [MatchesAsset, h]

/-- Witness for C7: a concrete asset with an empty scope list matches a
concrete path context. -/
theorem matchesAsset_global_absorbing_witness :
    MatchesAsset ⟨ScopeKind.path, "https://github.com/test/repo", "src/utils"⟩
      ⟨"test", "1.0.0", AType.skill, [], []⟩ = true :=
  matchesAsset_global_absorbing
    ⟨ScopeKind.path, "https://github.com/test/repo", "src/utils"⟩
    ⟨"test", "1.0.0", AType.skill, [], []⟩ rfl

/-- C8: for an asset all of whose scope entries carry non-empty paths,
`MatchesAsset` returns true exactly when some entry's repository equals the
context's repository URL, the context kind is path, and the context path
string-equals one of the entry's declared paths (no prefix or glob
matching). -/
theorem matchesAsset_path_entries (ctx : CtxScope) (a : Artifact)
    (hne : a.scopes ≠ [])
    (hpaths : ∀ s ∈ a.scopes, s.paths ≠ []) :
    MatchesAsset ctx a = true ↔
      ∃ s ∈ a.scopes, ctx.stype = ScopeKind.path ∧ ctx.repoURL = s.repo ∧
        ctx.repoPath ∈ s.paths := by
  unfold MatchesAsset
  rw [if_neg (by simpa [List.isEmpty_iff] using hne)]
  rw [List.any_eq_true]
  constructor
  · rintro ⟨s, hs, hmatch⟩
    refine ⟨s, hs, ?_⟩
    unfold scopeEntryMatches at hmatch
    rw [if_neg (by simpa [List.isEmpty_iff] using hpaths s hs)] at hmatch
    simp only [Bool.and_eq_true, decide_eq_true_eq] at hmatch
    exact ⟨hmatch.1.1, hmatch.1.2, hmatch.2⟩
  · rintro ⟨s, hs, h1, h2, h3⟩
    refine ⟨s, hs, ?_⟩
    unfold scopeEntryMatches
    rw [if_neg (by simpa [List.isEmpty_iff] using hpaths s hs)]
    simp only [Bool.and_eq_true, decide_eq_true_eq]
    exact ⟨⟨h1, h2⟩, h3⟩

/-- Witness for C8: an asset path-scoped to `src/components` of repository R
matches the path context at `src/components`, does not match the path
context at `src/utils`, and does not match the repo-typed context. -/
theorem matchesAsset_path_entries_witness :
    MatchesAsset ⟨ScopeKind.path, "R", "src/components"⟩
      ⟨"t", "1.0.0", AType.skill, [], [⟨"R", ["src/components"]⟩]⟩ = true ∧
    MatchesAsset ⟨ScopeKind.path, "R", "src/utils"⟩
      ⟨"t", "1.0.0", AType.skill, [], [⟨"R", ["src/components"]⟩]⟩ = false ∧
    MatchesAsset ⟨ScopeKind.repo, "R", ""⟩
      ⟨"t", "1.0.0", AType.skill, [], [⟨"R", ["src/components"]⟩]⟩ = false := by
  refine ⟨?_, ?_, ?_⟩
  · exact (matchesAsset_path_entries _ _ (by decide) (by decide)).mpr
      ⟨⟨"R", ["src/components"]⟩, by decide, rfl, rfl, by decide⟩
  · cases h : MatchesAsset ⟨ScopeKind.path, "R", "src/utils"⟩
      ⟨"t", "1.0.0", AType.skill, [], [⟨"R", ["src/components"]⟩]⟩ with
    | false => rfl
    | true =>
      rcases (matchesAsset_path_entries _ _ (by decide) (by decide)).mp h with
        ⟨s, hs, _, _, hmem⟩
      simp only [List.mem_singleton] at hs
      subst hs
      simp at hmem
  · cases h : MatchesAsset ⟨ScopeKind.repo, "R", ""⟩
      ⟨"t", "1.0.0", AType.skill, [], [⟨"R", ["src/components"]⟩]⟩ with
    | false => rfl
    | true =>
      rcases (matchesAsset_path_entries _ _ (by decide) (by decide)).mp h with
        ⟨s, hs, hty, _, _⟩
      exact absurd hty (by decide)

/-! ## Dependency resolver -/

/-- Errors of dependency resolution: a cycle error naming the artifact at
which a dependency cycle was detected, or a missing-dependency error naming
the dependency that does not exist in the lock file. -/
inductive ResolveError where
  | cycleDetected (name : String)
  | missingDependency (name : String)
deriving DecidableEq, Repr

/-- The names of a list of artifacts, in order. -/
def namesOf (out : List Artifact) : List String :=
  out.map Artifact.name

/-- The names of the lock file's artifacts. -/
def lockNames (L : LockFile) : List String :=
  L.artifacts.map Artifact.name

/-- Number of lock-file names not yet on the grey (in-progress) stack:
the termination measure of the resolver's depth-first search. -/
def greyGap (L : LockFile) (grey : List String) : Nat :=
  ((lockNames L).filter (fun m => !(decide (m ∈ grey)))).length

theorem length_filter_le_of_imp (l : List String) (p q : String → Bool)
    (h : ∀ m, q m = true → p m = true) :
    (l.filter q).length ≤ (l.filter p).length := by
  induction l with
  | nil => simp
  | cons x xs ih =>
    by_cases hq : q x = true
    · simp [List.filter_cons, hq, h x hq]
      omega
    · rw [List.filter_cons, if_neg (by simpa using hq), List.filter_cons]
      by_cases hp : p x = true
      · simp [hp]; omega
      · rw [if_neg (by simpa using hp)]; exact ih

theorem length_filter_lt_of_imp (l : List String) (p q : String → Bool)
    (h : ∀ m, q m = true → p m = true) (n : String) (hn : n ∈ l)
    (hp : p n = true) (hq : q n = false) :
    (l.filter q).length < (l.filter p).length := by
  induction l with
  | nil => simp at hn
  | cons x xs ih =>
    rcases List.mem_cons.mp hn with hx | hx
    · subst hx
      rw [List.filter_cons, if_neg (by simp [hq]), List.filter_cons, if_pos (by simp [hp])]
      have := length_filter_le_of_imp xs p q h
      simpa using Nat.lt_succ_of_le this
    · have hlt := ih hx
      rw [List.filter_cons, List.filter_cons]
      by_cases hqx : q x = true
      · simp [hqx, h x hqx]; omega
      · rw [if_neg (by simpa using hqx)]
        by_cases hpx : p x = true
        · simp [hpx]; omega
        · rw [if_neg (by simpa using hpx)]; exact hlt

theorem findArtifactByName_name_eq (L : LockFile) (n : String) (a : Artifact)
    (h : findArtifactByName L n = some a) : a.name = n := by
  unfold findArtifactByName at h
  have hpred := List.find?_some h
  simpa using hpred

theorem findArtifactByName_mem (L : LockFile) (n : String) (a : Artifact)
    (h : findArtifactByName L n = some a) : a ∈ L.artifacts := by
  unfold findArtifactByName at h
  exact List.mem_of_find?_eq_some h

theorem greyGap_cons_lt (L : LockFile) (grey : List String) (n : String)
    (hn : n ∈ lockNames L) (hg : n ∉ grey) :
    greyGap L (n :: grey) < greyGap L grey := by
  unfold greyGap
  refine length_filter_lt_of_imp _ _ _ ?_ n hn ?_ ?_
  · intro m hm
    simp only [Bool.not_eq_true', decide_eq_false_iff_not, List.mem_cons, not_or] at hm ⊢
    exact hm.2
  · simpa using hg
  · simp

/-- Modelled from the spec: the depth-first search at the heart of
`artifacts.DependencyResolver.Resolve` (implementation file absent;
§4.2: "classic DFS grey/black coloring"). `names` are the names still to
visit at this level, `grey` the stack of names currently being expanded
(most recent first), `out` the black list: artifacts fully expanded, in
dependency order. A name already in `out` is skipped; a name still on the
grey stack is a cycle; an unknown name is a missing dependency; otherwise
the artifact's dependencies are expanded first and the artifact is appended
after them. -/
def visitMany (L : LockFile) (names grey : List String) (out : List Artifact) :
    Except ResolveError (List Artifact) :=
  match names with
  | [] => .ok out
  | n :: rest =>
    if h1 : n ∈ namesOf out then
      visitMany L rest grey out
    else if h2 : n ∈ grey then
      .error (.cycleDetected n)
    else
      match hfind : findArtifactByName L n with
      | none => .error (.missingDependency n)
      | some a =>
        match visitMany L a.depNames (n :: grey) out with
        | .error e => .error e
        | .ok out2 => visitMany L rest grey (out2 ++ [a])
termination_by (greyGap L grey, names.length)
decreasing_by
  · exact Prod.Lex.right _ (by simp)
  · refine Prod.Lex.left _ _ (greyGap_cons_lt L grey n ?_ h2)
    have hmem := findArtifactByName_mem L n a hfind
    have hname : a.name = n := findArtifactByName_name_eq L n a hfind
    exact hname ▸ List.mem_map_of_mem Artifact.name hmem
  · exact Prod.Lex.right _ (by simp)

/-- Modelled from the spec: `artifacts.DependencyResolver.Resolve`
(implementation file absent; contract in §4.2): expand the requested
artifacts and all transitive dependencies, looked up by name in the full
lock file, into a dependency-ordered list, failing on cycles and missing
dependencies. -/
def Resolve (L : LockFile) (requested : List Artifact) :
    Except ResolveError (List Artifact) :=
  visitMany L (requested.map Artifact.name) [] []

/-- Modelled from the spec: `lockfile.LockFile.ValidateDependencies`
(implementation file absent; pinned by `TestCircularDependencies` and §6:
the load-time validation "calls the cycle/dangling-dependency check
described in §4.2"): run dependency resolution over every artifact of the
lock file and report its error, if any. -/
def ValidateDependencies (L : LockFile) : Except ResolveError Unit :=
  match Resolve L L.artifacts with
  | .ok _ => .ok ()
  | .error e => .error e

/-- The dependency edge relation of a lock file, as a boolean: `n` has an
edge to `m` when the artifact found under name `n` lists `m` among its
dependency names. -/
def EdgeB (L : LockFile) (n m : String) : Bool :=
  match findArtifactByName L n with
  | some a => decide (m ∈ a.depNames)
  | none => false

/-- The dependency edge relation of a lock file. -/
def Edge (L : LockFile) (n m : String) : Prop :=
  EdgeB L n m = true

/-- A nonempty path along dependency edges. -/
inductive NamePath (L : LockFile) : String → String → Prop
  | single {n m : String} : Edge L n m → NamePath L n m
  | cons {n m k : String} : Edge L n m → NamePath L m k → NamePath L n k

/-- A lock file's dependency graph is acyclic: no name has a nonempty
dependency path back to itself. -/
def Acyclic (L : LockFile) : Prop :=
  ∀ n, ¬ NamePath L n n

/-- A lock file has no dangling dependency references: every dependency
name of every artifact is found in the lock file (the §3 lock-file
invariant). -/
def ClosedLock (L : LockFile) : Prop :=
  ∀ a ∈ L.artifacts, ∀ d ∈ a.depNames, (findArtifactByName L d).isSome

/-- A list of artifacts is topologically ordered: every dependency name of
the artifact at position `i` is the name of some artifact at a strictly
smaller position. -/
def TopoOrdered (out : List Artifact) : Prop :=
  ∀ i, ∀ hi : i < out.length, ∀ d ∈ (out.get ⟨i, hi⟩).depNames,
    ∃ j, ∃ hj : j < out.length, j < i ∧ (out.get ⟨j, hj⟩).name = d

/-- Every artifact of the list is the one the lock file yields for its own
name. -/
def FromLock (L : LockFile) (out : List Artifact) : Prop :=
  ∀ a ∈ out, findArtifactByName L a.name = some a

theorem visitMany_nil (L : LockFile) (grey : List String) (out : List Artifact) :
    visitMany L [] grey out = .ok out := by
  rw [visitMany]

theorem visitMany_cons_skip (L : LockFile) {n : String} (rest grey : List String)
    (out : List Artifact) (h1 : n ∈ namesOf out) :
    visitMany L (n :: rest) grey out = visitMany L rest grey out := by
  rw [visitMany, dif_pos h1]

theorem visitMany_cons_grey (L : LockFile) {n : String} (rest grey : List String)
    (out : List Artifact) (h1 : n ∉ namesOf out) (h2 : n ∈ grey) :
    visitMany L (n :: rest) grey out = .error (.cycleDetected n) := by
  rw [visitMany, dif_neg h1, dif_pos h2]

theorem visitMany_cons_missing (L : LockFile) {n : String} (rest grey : List String)
    (out : List Artifact) (h1 : n ∉ namesOf out) (h2 : n ∉ grey)
    (hfind : findArtifactByName L n = none) :
    visitMany L (n :: rest) grey out = .error (.missingDependency n) := by
  rw [visitMany, dif_neg h1, dif_neg h2]
  split
  · rfl
  · next a heq => rw [hfind] at heq; cases heq

theorem visitMany_cons_found (L : LockFile) {n : String} (rest grey : List String)
    (out : List Artifact) (h1 : n ∉ namesOf out) (h2 : n ∉ grey) {a : Artifact}
    (hfind : findArtifactByName L n = some a) :
    visitMany L (n :: rest) grey out =
      match visitMany L a.depNames (n :: grey) out with
      | .error e => .error e
      | .ok out2 => visitMany L rest grey (out2 ++ [a]) := by
  rw [visitMany, dif_neg h1, dif_neg h2]
  split
  · next heq => rw [hfind] at heq; cases heq
  · next a1 heq =>
    rw [hfind] at heq
    cases heq
    rfl

/-- A successful search pass only appends to the black list. -/
theorem visitMany_ok_extends (L : LockFile) (names grey : List String) (out : List Artifact) :
    ∀ out', visitMany L names grey out = .ok out' → ∃ t, out' = out ++ t := by
  induction names, grey, out using visitMany.induct L with
  | case1 grey out =>
    intro out' h
    rw [visitMany_nil] at h
    exact ⟨[], by simpa using (Except.ok.inj h).symm⟩
  | case2 grey out n rest h1 ih =>
    intro out' h
    rw [visitMany_cons_skip L rest grey out h1] at h
    exact ih out' h
  | case3 grey out n rest h1 h2 =>
    intro out' h
    rw [visitMany_cons_grey L rest grey out h1 h2] at h
    cases h
  | case4 grey out n rest h1 h2 hfind =>
    intro out' h
    rw [visitMany_cons_missing L rest grey out h1 h2 hfind] at h
    cases h
  | case5 grey out n rest h1 h2 a hfind e herr ih =>
    intro out' h
    rw [visitMany_cons_found L rest grey out h1 h2 hfind, herr] at h
    cases h
  | case6 grey out n rest h1 h2 a hfind out2 hok ih1 ih2 =>
    intro out' h
    rw [visitMany_cons_found L rest grey out h1 h2 hfind, hok] at h
    rcases ih1 out2 hok with ⟨t1, ht1⟩
    rcases ih2 out' h with ⟨t2, ht2⟩
    exact ⟨t1 ++ [a] ++ t2, by simp [ht2, ht1]⟩

theorem namesOf_mono_append (l t : List Artifact) {m : String}
    (h : m ∈ namesOf l) : m ∈ namesOf (l ++ t) := by
  simp only [namesOf, List.map_append, List.mem_append]
  exact Or.inl (by simpa [namesOf] using h)

/-- On success every pending name has been blackened. -/
theorem visitMany_ok_mem (L : LockFile) (names grey : List String) (out : List Artifact) :
    ∀ out', visitMany L names grey out = .ok out' →
      ∀ n ∈ names, n ∈ namesOf out' := by
  induction names, grey, out using visitMany.induct L with
  | case1 grey out =>
    intro out' _ n hn
    cases hn
  | case2 grey out n rest h1 ih =>
    intro out' h m hm
    rcases List.mem_cons.mp hm with hm | hm
    · subst hm
      rw [visitMany_cons_skip L rest grey out h1] at h
      rcases visitMany_ok_extends L rest grey out out' h with ⟨t, ht⟩
      subst ht
      exact namesOf_mono_append out t h1
    · rw [visitMany_cons_skip L rest grey out h1] at h
      exact ih out' h m hm
  | case3 grey out n rest h1 h2 =>
    intro out' h
    rw [visitMany_cons_grey L rest grey out h1 h2] at h
    cases h
  | case4 grey out n rest h1 h2 hfind =>
    intro out' h
    rw [visitMany_cons_missing L rest grey out h1 h2 hfind] at h
    cases h
  | case5 grey out n rest h1 h2 a hfind e herr ih =>
    intro out' h
    rw [visitMany_cons_found L rest grey out h1 h2 hfind, herr] at h
    cases h
  | case6 grey out n rest h1 h2 a hfind out2 hok ih1 ih2 =>
    intro out' h m hm
    rw [visitMany_cons_found L rest grey out h1 h2 hfind, hok] at h
    rcases List.mem_cons.mp hm with hm | hm
    · subst hm
      rcases visitMany_ok_extends L rest grey (out2 ++ [a]) out' h with ⟨t, ht⟩
      subst ht
      have hname : a.name = m := findArtifactByName_name_eq L m a hfind
      have hsub : m ∈ namesOf (out2 ++ [a]) := by
        simp only [namesOf, List.map_append, List.mem_append]
        right
        simp [hname]
      exact namesOf_mono_append (out2 ++ [a]) t hsub
    · exact ih2 out' h m hm

/-- Names still on the grey stack are never blackened during the pass. -/
theorem visitMany_ok_grey (L : LockFile) (names grey : List String) (out : List Artifact) :
    ∀ out', visitMany L names grey out = .ok out' →
      ∀ m ∈ grey, m ∈ namesOf out' → m ∈ namesOf out := by
  induction names, grey, out using visitMany.induct L with
  | case1 grey out =>
    intro out' h m _ hm'
    rw [visitMany_nil] at h
    cases Except.ok.inj h
    exact hm'
  | case2 grey out n rest h1 ih =>
    intro out' h
    rw [visitMany_cons_skip L rest grey out h1] at h
    exact ih out' h
  | case3 grey out n rest h1 h2 =>
    intro out' h
    rw [visitMany_cons_grey L rest grey out h1 h2] at h
    cases h
  | case4 grey out n rest h1 h2 hfind =>
    intro out' h
    rw [visitMany_cons_missing L rest grey out h1 h2 hfind] at h
    cases h
  | case5 grey out n rest h1 h2 a hfind e herr ih =>
    intro out' h
    rw [visitMany_cons_found L rest grey out h1 h2 hfind, herr] at h
    cases h
  | case6 grey out n rest h1 h2 a hfind out2 hok ih1 ih2 =>
    intro out' h m hm hm'
    rw [visitMany_cons_found L rest grey out h1 h2 hfind, hok] at h
    have hmid : m ∈ namesOf (out2 ++ [a]) := ih2 out' h m hm hm'
    have hname : a.name = n := findArtifactByName_name_eq L n a hfind
    simp only [namesOf, List.map_append, List.mem_append] at hmid
    rcases hmid with hmid | hmid
    · exact ih1 out2 hok m (List.mem_cons_of_mem n hm) hmid
    · simp only [List.map_cons, List.map_nil, List.mem_singleton] at hmid
      rw [hmid, hname] at hm
      exact absurd hm h2

/-- Success preserves distinctness of the blackened names. -/
theorem visitMany_ok_nodup (L : LockFile) (names grey : List String) (out : List Artifact) :
    ∀ out', visitMany L names grey out = .ok out' →
      (namesOf out).Nodup → (namesOf out').Nodup := by
  induction names, grey, out using visitMany.induct L with
  | case1 grey out =>
    intro out' h hnd
    rw [visitMany_nil] at h
    cases Except.ok.inj h
    exact hnd
  | case2 grey out n rest h1 ih =>
    intro out' h
    rw [visitMany_cons_skip L rest grey out h1] at h
    exact ih out' h
  | case3 grey out n rest h1 h2 =>
    intro out' h
    rw [visitMany_cons_grey L rest grey out h1 h2] at h
    cases h
  | case4 grey out n rest h1 h2 hfind =>
    intro out' h
    rw [visitMany_cons_missing L rest grey out h1 h2 hfind] at h
    cases h
  | case5 grey out n rest h1 h2 a hfind e herr ih =>
    intro out' h
    rw [visitMany_cons_found L rest grey out h1 h2 hfind, herr] at h
    cases h
  | case6 grey out n rest h1 h2 a hfind out2 hok ih1 ih2 =>
    intro out' h hnd
    rw [visitMany_cons_found L rest grey out h1 h2 hfind, hok] at h
    have hnd2 : (namesOf out2).Nodup := ih1 out2 hok hnd
    have hname : a.name = n := findArtifactByName_name_eq L n a hfind
    have hnotin : n ∉ namesOf out2 := fun hmem =>
      h1 (visitMany_ok_grey L a.depNames (n :: grey) out out2 hok n
        (List.mem_cons_self n grey) hmem)
    have hnd3 : (namesOf (out2 ++ [a])).Nodup := by
      simp only [namesOf, List.map_append, List.nodup_append, List.map_cons, List.map_nil]
      refine ⟨hnd2, by simp, ?_⟩
      intro x hx hx2
      simp only [List.mem_singleton] at hx2
      rw [hx2, hname] at hx
      exact hnotin hx
    exact ih2 out' h hnd3

/-- Success preserves that every blackened artifact is the lock-file's
artifact for its own name. -/
theorem visitMany_ok_fromLock (L : LockFile) (names grey : List String) (out : List Artifact) :
    ∀ out', visitMany L names grey out = .ok out' →
      FromLock L out → FromLock L out' := by
  induction names, grey, out using visitMany.induct L with
  | case1 grey out =>
    intro out' h hfl
    rw [visitMany_nil] at h
    cases Except.ok.inj h
    exact hfl
  | case2 grey out n rest h1 ih =>
    intro out' h
    rw [visitMany_cons_skip L rest grey out h1] at h
    exact ih out' h
  | case3 grey out n rest h1 h2 =>
    intro out' h
    rw [visitMany_cons_grey L rest grey out h1 h2] at h
    cases h
  | case4 grey out n rest h1 h2 hfind =>
    intro out' h
    rw [visitMany_cons_missing L rest grey out h1 h2 hfind] at h
    cases h
  | case5 grey out n rest h1 h2 a hfind e herr ih =>
    intro out' h
    rw [visitMany_cons_found L rest grey out h1 h2 hfind, herr] at h
    cases h
  | case6 grey out n rest h1 h2 a hfind out2 hok ih1 ih2 =>
    intro out' h hfl
    rw [visitMany_cons_found L rest grey out h1 h2 hfind, hok] at h
    have hfl2 : FromLock L out2 := ih1 out2 hok hfl
    have hname : a.name = n := findArtifactByName_name_eq L n a hfind
    have hfl3 : FromLock L (out2 ++ [a]) := by
      intro b hb
      rcases List.mem_append.mp hb with hb | hb
      · exact hfl2 b hb
      · simp only [List.mem_singleton] at hb
        subst hb
        rw [hname]
        exact hfind
    exact ih2 out' h hfl3

theorem topo_append_one {l : List Artifact} {a : Artifact}
    (ht : TopoOrdered l) (hd : ∀ d ∈ a.depNames, d ∈ namesOf l) :
    TopoOrdered (l ++ [a]) := by
  intro i hi d hdi
  by_cases hlt : i < l.length
  · rw [List.get_eq_getElem, List.getElem_append_left hlt] at hdi
    obtain ⟨j, hj, hjlt, hjname⟩ :=
      ht i hlt d (by rw [List.get_eq_getElem]; exact hdi)
    refine ⟨j, by simp; omega, hjlt, ?_⟩
    rw [List.get_eq_getElem, List.getElem_append_left hj]
    rw [List.get_eq_getElem] at hjname
    exact hjname
  · have hieq : i = l.length := by
      have := hi
      simp only [List.length_append, List.length_cons, List.length_nil] at this
      omega
    rw [List.get_eq_getElem, List.getElem_concat_length l a i hieq] at hdi
    have hmem : d ∈ namesOf l := hd d hdi
    simp only [namesOf, List.mem_map] at hmem
    obtain ⟨b, hb, hbname⟩ := hmem
    obtain ⟨j, hj, hjb⟩ := List.mem_iff_getElem.mp hb
    refine ⟨j, by simp; omega, by omega, ?_⟩
    rw [List.get_eq_getElem, List.getElem_append_left hj, hjb]
    exact hbname

/-- Success preserves topological ordering of the blackened list. -/
theorem visitMany_ok_topo (L : LockFile) (names grey : List String) (out : List Artifact) :
    ∀ out', visitMany L names grey out = .ok out' →
      TopoOrdered out → TopoOrdered out' := by
  induction names, grey, out using visitMany.induct L with
  | case1 grey out =>
    intro out' h ht
    rw [visitMany_nil] at h
    cases Except.ok.inj h
    exact ht
  | case2 grey out n rest h1 ih =>
    intro out' h
    rw [visitMany_cons_skip L rest grey out h1] at h
    exact ih out' h
  | case3 grey out n rest h1 h2 =>
    intro out' h
    rw [visitMany_cons_grey L rest grey out h1 h2] at h
    cases h
  | case4 grey out n rest h1 h2 hfind =>
    intro out' h
    rw [visitMany_cons_missing L rest grey out h1 h2 hfind] at h
    cases h
  | case5 grey out n rest h1 h2 a hfind e herr ih =>
    intro out' h
    rw [visitMany_cons_found L rest grey out h1 h2 hfind, herr] at h
    cases h
  | case6 grey out n rest h1 h2 a hfind out2 hok ih1 ih2 =>
    intro out' h ht
    rw [visitMany_cons_found L rest grey out h1 h2 hfind, hok] at h
    have ht2 : TopoOrdered out2 := ih1 out2 hok ht
    have hdeps : ∀ d ∈ a.depNames, d ∈ namesOf out2 :=
      visitMany_ok_mem L a.depNames (n :: grey) out out2 hok
    exact ih2 out' h (topo_append_one ht2 hdeps)

/-- Everything blackened during a successful pass was already black or is
reachable from one of the pending names. -/
theorem visitMany_ok_reach (L : LockFile) (names grey : List String) (out : List Artifact) :
    ∀ out', visitMany L names grey out = .ok out' →
      ∀ b ∈ out', b ∈ out ∨ ∃ s ∈ names, s = b.name ∨ NamePath L s b.name := by
  induction names, grey, out using visitMany.induct L with
  | case1 grey out =>
    intro out' h b hb
    rw [visitMany_nil] at h
    cases Except.ok.inj h
    exact Or.inl hb
  | case2 grey out n rest h1 ih =>
    intro out' h b hb
    rw [visitMany_cons_skip L rest grey out h1] at h
    rcases ih out' h b hb with hb2 | ⟨s, hs, hsp⟩
    · exact Or.inl hb2
    · exact Or.inr ⟨s, List.mem_cons_of_mem n hs, hsp⟩
  | case3 grey out n rest h1 h2 =>
    intro out' h
    rw [visitMany_cons_grey L rest grey out h1 h2] at h
    cases h
  | case4 grey out n rest h1 h2 hfind =>
    intro out' h
    rw [visitMany_cons_missing L rest grey out h1 h2 hfind] at h
    cases h
  | case5 grey out n rest h1 h2 a hfind e herr ih =>
    intro out' h
    rw [visitMany_cons_found L rest grey out h1 h2 hfind, herr] at h
    cases h
  | case6 grey out n rest h1 h2 a hfind out2 hok ih1 ih2 =>
    intro out' h b hb
    rw [visitMany_cons_found L rest grey out h1 h2 hfind, hok] at h
    have hname : a.name = n := findArtifactByName_name_eq L n a hfind
    rcases ih2 out' h b hb with hb2 | ⟨s, hs, hsp⟩
    · rcases List.mem_append.mp hb2 with hb3 | hb3
      · rcases ih1 out2 hok b hb3 with hb4 | ⟨s, hs, hsp⟩
        · exact Or.inl hb4
        · have hedge : Edge L n s := by
            unfold Edge EdgeB
            rw [hfind]
            simpa using hs
          rcases hsp with hsp | hsp
          · exact Or.inr ⟨n, List.mem_cons_self n rest,
              Or.inr (NamePath.single (hsp ▸ hedge))⟩
          · exact Or.inr ⟨n, List.mem_cons_self n rest,
              Or.inr (NamePath.cons hedge hsp)⟩
      · simp only [List.mem_singleton] at hb3
        subst hb3
        exact Or.inr ⟨n, List.mem_cons_self n rest, Or.inl hname.symm⟩
    · exact Or.inr ⟨s, List.mem_cons_of_mem n hs, hsp⟩

/-- In a lock file with no dangling references, the search never reports a
missing dependency when every pending name is present. -/
theorem visitMany_ne_missing (L : LockFile) (hclosed : ClosedLock L)
    (names grey : List String) (out : List Artifact) :
    (∀ n ∈ names, (findArtifactByName L n).isSome) →
      ∀ m, visitMany L names grey out ≠ .error (.missingDependency m) := by
  induction names, grey, out using visitMany.induct L with
  | case1 grey out =>
    intro _ m h
    rw [visitMany_nil] at h
    cases h
  | case2 grey out n rest h1 ih =>
    intro hnames m h
    rw [visitMany_cons_skip L rest grey out h1] at h
    exact ih (fun k hk => hnames k (List.mem_cons_of_mem n hk)) m h
  | case3 grey out n rest h1 h2 =>
    intro _ m h
    rw [visitMany_cons_grey L rest grey out h1 h2] at h
    simp at h
  | case4 grey out n rest h1 h2 hfind =>
    intro hnames m h
    have := hnames n (List.mem_cons_self n rest)
    rw [hfind] at this
    simp at this
  | case5 grey out n rest h1 h2 a hfind e herr ih =>
    intro hnames m h
    rw [visitMany_cons_found L rest grey out h1 h2 hfind, herr] at h
    have hmem := findArtifactByName_mem L n a hfind
    have hdeps : ∀ d ∈ a.depNames, (findArtifactByName L d).isSome :=
      fun d hd => hclosed a hmem d hd
    injection h with h3
    subst h3
    exact ih hdeps m herr
  | case6 grey out n rest h1 h2 a hfind out2 hok ih1 ih2 =>
    intro hnames m h
    rw [visitMany_cons_found L rest grey out h1 h2 hfind, hok] at h
    exact ih2 (fun k hk => hnames k (List.mem_cons_of_mem n hk)) m h

/-- The grey stack as a dependency chain: each element (except the oldest)
is a dependency of the element pushed just before it. -/
inductive GreyChain (L : LockFile) : List String → Prop
  | nil : GreyChain L []
  | single (g : String) : GreyChain L [g]
  | cons {g g2 : String} {rest : List String} :
      Edge L g2 g → GreyChain L (g2 :: rest) → GreyChain L (g :: g2 :: rest)

theorem namePath_snoc {L : LockFile} {x y z : String}
    (hp : NamePath L x y) (he : Edge L y z) : NamePath L x z := by
  induction hp with
  | single e => exact NamePath.cons e (NamePath.single he)
  | cons e _ ih => exact NamePath.cons e (ih he)

theorem greyChain_path {L : LockFile} {grey : List String}
    (hc : GreyChain L grey) :
    ∀ g gs, grey = g :: gs → ∀ n ∈ grey, n = g ∨ NamePath L n g := by
  induction hc with
  | nil =>
    intro g gs heq
    cases heq
  | single g0 =>
    intro g gs heq n hn
    cases heq
    simp only [List.mem_singleton] at hn
    exact Or.inl hn
  | @cons g0 g2 rest he hc2 ih =>
    intro g gs heq n hn
    cases heq
    rcases List.mem_cons.mp hn with hn | hn
    · exact Or.inl hn
    · rcases ih g2 rest rfl n hn with hn2 | hn2
      · subst hn2
        exact Or.inr (NamePath.single he)
      · exact Or.inr (namePath_snoc hn2 he)

/-- When the search reports a cycle at `c`, the lock file really has a
dependency cycle through `c`. -/
theorem visitMany_cycle (L : LockFile) (names grey : List String) (out : List Artifact) :
    GreyChain L grey →
    (∀ g gs, grey = g :: gs → ∀ n ∈ names, Edge L g n) →
    ∀ c, visitMany L names grey out = .error (.cycleDetected c) → NamePath L c c := by
  induction names, grey, out using visitMany.induct L with
  | case1 grey out =>
    intro _ _ c h
    rw [visitMany_nil] at h
    cases h
  | case2 grey out n rest h1 ih =>
    intro hc hhead c h
    rw [visitMany_cons_skip L rest grey out h1] at h
    exact ih hc (fun g gs hg k hk => hhead g gs hg k (List.mem_cons_of_mem n hk)) c h
  | case3 grey out n rest h1 h2 =>
    intro hc hhead c h
    rw [visitMany_cons_grey L rest grey out h1 h2] at h
    injection h with h3
    injection h3 with h4
    subst h4
    cases grey with
    | nil => cases h2
    | cons g gs =>
      have hedge : Edge L g n := hhead g gs rfl n (List.mem_cons_self n rest)
      rcases greyChain_path hc g gs rfl n h2 with hcg | hcg
      · subst hcg
        exact NamePath.single hedge
      · exact namePath_snoc hcg hedge
  | case4 grey out n rest h1 h2 hfind =>
    intro _ _ c h
    rw [visitMany_cons_missing L rest grey out h1 h2 hfind] at h
    simp at h
  | case5 grey out n rest h1 h2 a hfind e herr ih =>
    intro hc hhead c h
    rw [visitMany_cons_found L rest grey out h1 h2 hfind, herr] at h
    injection h with h3
    subst h3
    have hc2 : GreyChain L (n :: grey) := by
      match grey with
      | [] => exact GreyChain.single n
      | g :: gs =>
        exact GreyChain.cons (hhead g gs rfl n (List.mem_cons_self n rest)) hc
    have hhead2 : ∀ g gs, n :: grey = g :: gs → ∀ d ∈ a.depNames, Edge L g d := by
      intro g gs hg d hd
      injection hg with hg1 _
      subst hg1
      unfold Edge EdgeB
      rw [hfind]
      simpa using hd
    exact ih hc2 hhead2 c herr
  | case6 grey out n rest h1 h2 a hfind out2 hok ih1 ih2 =>
    intro hc hhead c h
    rw [visitMany_cons_found L rest grey out h1 h2 hfind, hok] at h
    exact ih2 hc (fun g gs hg k hk => hhead g gs hg k (List.mem_cons_of_mem n hk)) c h

theorem find_self_of_nodup (l : List Artifact) (hnd : (l.map Artifact.name).Nodup)
    {a : Artifact} (ha : a ∈ l) :
    l.find? (fun b => decide (b.name = a.name)) = some a := by
  induction l with
  | nil => cases ha
  | cons x xs ih =>
    rcases List.mem_cons.mp ha with h | h
    · subst h
      rw [List.find?_cons_of_pos xs (by simp)]
    · have hx : x.name ≠ a.name := by
        simp only [List.map_cons, List.nodup_cons] at hnd
        intro he
        exact hnd.1 (he ▸ List.mem_map_of_mem Artifact.name h)
      rw [List.find?_cons_of_neg xs (by simpa using hx)]
      refine ih ?_ h
      simp only [List.map_cons, List.nodup_cons] at hnd
      exact hnd.2

theorem findArtifactByName_self (L : LockFile) (hnd : (lockNames L).Nodup)
    {a : Artifact} (ha : a ∈ L.artifacts) :
    findArtifactByName L a.name = some a := by
  unfold findArtifactByName
  unfold lockNames at hnd
  exact find_self_of_nodup L.artifacts hnd ha

theorem out_edge_step (L : LockFile) {out : List Artifact}
    (hfl : FromLock L out) (htp : TopoOrdered out) {n m : String}
    (he : Edge L n m) :
    ∀ i, ∀ hi : i < out.length, (out.get ⟨i, hi⟩).name = n →
      ∃ j, ∃ hj : j < out.length, j < i ∧ (out.get ⟨j, hj⟩).name = m := by
  intro i hi hname
  unfold Edge EdgeB at he
  cases hfindn : findArtifactByName L n with
  | none => rw [hfindn] at he; cases he
  | some b =>
    rw [hfindn] at he
    have hmdep : m ∈ b.depNames := of_decide_eq_true he
    have hget := hfl (out.get ⟨i, hi⟩) (List.get_mem out i hi)
    rw [hname, hfindn] at hget
    injection hget with hb
    exact htp i hi m (hb ▸ hmdep)

theorem out_path_step (L : LockFile) {out : List Artifact}
    (hfl : FromLock L out) (htp : TopoOrdered out) {n m : String}
    (hp : NamePath L n m) :
    ∀ i, ∀ hi : i < out.length, (out.get ⟨i, hi⟩).name = n →
      ∃ j, ∃ hj : j < out.length, j < i ∧ (out.get ⟨j, hj⟩).name = m := by
  induction hp with
  | single e => exact out_edge_step L hfl htp e
  | @cons x y z e _ ih =>
    intro i hi hname
    obtain ⟨j, hj, hji, hjname⟩ := out_edge_step L hfl htp e i hi hname
    obtain ⟨k, hk, hkj, hkname⟩ := ih j hj hjname
    exact ⟨k, hk, by omega, hkname⟩

theorem mem_of_path (L : LockFile) {out : List Artifact}
    (hfl : FromLock L out) (htp : TopoOrdered out)
    {n m : String} (hp : NamePath L n m) (hn : n ∈ namesOf out) :
    m ∈ namesOf out := by
  simp only [namesOf, List.mem_map] at hn
  obtain ⟨b, hb, hbname⟩ := hn
  obtain ⟨i, hi, hib⟩ := List.mem_iff_getElem.mp hb
  have hgetname : (out.get ⟨i, hi⟩).name = n := by
    rw [List.get_eq_getElem, hib, hbname]
  obtain ⟨j, hj, _, hjname⟩ := out_path_step L hfl htp hp i hi hgetname
  simp only [namesOf, List.mem_map]
  exact ⟨out.get ⟨j, hj⟩, List.get_mem out j hj, hjname⟩

theorem edge_rank {L : LockFile} (f : String → Nat)
    (h : ∀ a ∈ L.artifacts, ∀ d ∈ a.depNames, f d < f a.name)
    {n m : String} (he : Edge L n m) : f m < f n := by
  unfold Edge EdgeB at he
  cases hf : findArtifactByName L n with
  | none => rw [hf] at he; cases he
  | some a =>
    rw [hf] at he
    have hmem := findArtifactByName_mem L n a hf
    have hname := findArtifactByName_name_eq L n a hf
    have := h a hmem m (of_decide_eq_true he)
    rwa [hname] at this

theorem path_rank {L : LockFile} (f : String → Nat)
    (h : ∀ a ∈ L.artifacts, ∀ d ∈ a.depNames, f d < f a.name)
    {n m : String} (hp : NamePath L n m) : f m < f n := by
  induction hp with
  | single e => exact edge_rank f h e
  | cons e _ ih => exact lt_trans ih (edge_rank f h e)

/-- A rank function strictly decreasing along dependency edges certifies
acyclicity of the lock file's dependency graph. -/
theorem acyclic_of_rank (L : LockFile) (f : String → Nat)
    (h : ∀ a ∈ L.artifacts, ∀ d ∈ a.depNames, f d < f a.name) : Acyclic L :=
  fun _ hp => absurd (path_rank f h hp) (lt_irrefl _)

theorem roots_isSome (L : LockFile) (requested : List Artifact)
    (hreq : ∀ a ∈ requested, a ∈ L.artifacts) :
    ∀ n ∈ requested.map Artifact.name, (findArtifactByName L n).isSome := by
  intro n hn
  simp only [List.mem_map] at hn
  obtain ⟨r, hr, hrname⟩ := hn
  unfold findArtifactByName
  rw [List.find?_isSome]
  exact ⟨r, hreq r hr, by simp [hrname]⟩

theorem topoOrdered_nil : TopoOrdered [] := by
  intro i hi
  simp at hi

/-- C1: for every lock file with unique names, no dangling dependency
references and an acyclic dependency graph, and every requested subset of
its artifacts, `Resolve` succeeds with a list that contains each requested
artifact, contains every transitive dependency reachable from the request
(and nothing else), and is topologically ordered: each artifact sits at an
index strictly greater than the indices of all of its dependencies. -/
theorem resolve_acyclic_topological (L : LockFile) (requested : List Artifact)
    (hnodup : (lockNames L).Nodup)
    (hreq : ∀ a ∈ requested, a ∈ L.artifacts)
    (hclosed : ClosedLock L)
    (hacyc : Acyclic L) :
    ∃ out, Resolve L requested = .ok out ∧
      (∀ a ∈ requested, a ∈ out) ∧
      (∀ n, (∃ r ∈ requested, NamePath L r.name n) → n ∈ namesOf out) ∧
      (∀ b ∈ out, b.name ∈ requested.map Artifact.name ∨
        ∃ r ∈ requested, NamePath L r.name b.name) ∧
      TopoOrdered out := by
  cases hres : Resolve L requested with
  | error e =>
    exfalso
    unfold Resolve at hres
    cases e with
    | cycleDetected c =>
      have hpath := visitMany_cycle L (requested.map Artifact.name) [] []
        GreyChain.nil (by intro g gs hg; cases hg) c hres
      exact hacyc c hpath
    | missingDependency m =>
      exact visitMany_ne_missing L hclosed _ [] []
        (roots_isSome L requested hreq) m hres
  | ok out =>
    have hres2 : visitMany L (requested.map Artifact.name) [] [] = .ok out := hres
    have hfl : FromLock L out :=
      visitMany_ok_fromLock L _ [] [] out hres2 (by intro b hb; cases hb)
    have htp : TopoOrdered out :=
      visitMany_ok_topo L _ [] [] out hres2 topoOrdered_nil
    have hmem := visitMany_ok_mem L _ [] [] out hres2
    refine ⟨out, rfl, ?_, ?_, ?_, htp⟩
    · intro a ha
      have hn : a.name ∈ namesOf out :=
        hmem a.name (List.mem_map_of_mem Artifact.name ha)
      simp only [namesOf, List.mem_map] at hn
      obtain ⟨b, hb, hbname⟩ := hn
      have h1 : findArtifactByName L b.name = some b := hfl b hb
      have h2 : findArtifactByName L a.name = some a :=
        findArtifactByName_self L hnodup (hreq a ha)
      rw [hbname] at h1
      rw [h1] at h2
      injection h2 with h3
      exact h3 ▸ hb
    · rintro n ⟨r, hr, hrp⟩
      have hroot : r.name ∈ namesOf out :=
        hmem r.name (List.mem_map_of_mem Artifact.name hr)
      exact mem_of_path L hfl htp hrp hroot
    · intro b hb
      rcases visitMany_ok_reach L _ [] [] out hres2 b hb with hb2 | ⟨s, hs, hsp⟩
      · cases hb2
      · rcases List.mem_map.mp hs with ⟨r, hr, hrname⟩
        rcases hsp with hsp | hsp
        · exact Or.inl (hsp ▸ hs)
        · exact Or.inr ⟨r, hr, hrname ▸ hsp⟩

/-- Example lock file with the acyclic chain a → b → c. -/
def lockChainEx : LockFile :=
  ⟨[⟨"a", "1.0.0", AType.skill, [⟨"b"⟩], []⟩,
    ⟨"b", "1.0.0", AType.skill, [⟨"c"⟩], []⟩,
    ⟨"c", "1.0.0", AType.skill, [], []⟩]⟩

/-- Example request: the artifact a of `lockChainEx`. -/
def reqChainEx : List Artifact :=
  [⟨"a", "1.0.0", AType.skill, [⟨"b"⟩], []⟩]

/-- A rank function witnessing acyclicity of `lockChainEx`. -/
def rankChainEx : String → Nat :=
  fun n => if n = "b" then 1 else if n = "c" then 0 else 2

/-- Witness for C1: on the concrete chain lock file, resolution of the
request [a] succeeds with all the guaranteed ordering properties. -/
theorem resolve_acyclic_topological_witness :
    ∃ out, Resolve lockChainEx reqChainEx = .ok out ∧
      (∀ a ∈ reqChainEx, a ∈ out) ∧
      (∀ n, (∃ r ∈ reqChainEx, NamePath lockChainEx r.name n) →
        n ∈ namesOf out) ∧
      (∀ b ∈ out, b.name ∈ reqChainEx.map Artifact.name ∨
        ∃ r ∈ reqChainEx, NamePath lockChainEx r.name b.name) ∧
      TopoOrdered out :=
  resolve_acyclic_topological lockChainEx reqChainEx (by decide) (by decide)
    (by unfold ClosedLock; decide)
    (acyclic_of_rank lockChainEx rankChainEx (by decide))

theorem namePath_src_mem {L : LockFile} {n m : String} (hp : NamePath L n m) :
    ∃ a ∈ L.artifacts, a.name = n := by
  have hex : ∃ x, Edge L n x := by
    cases hp with
    | single e => exact ⟨_, e⟩
    | cons e _ => exact ⟨_, e⟩
  obtain ⟨x, he⟩ := hex
  unfold Edge EdgeB at he
  cases hf : findArtifactByName L n with
  | none => rw [hf] at he; cases he
  | some a =>
    exact ⟨a, findArtifactByName_mem L n a hf, findArtifactByName_name_eq L n a hf⟩

/-- Core of C2: under the lock-file closedness invariant, a cycle reachable
from the requested set forces `Resolve` to fail with a cycle error naming a
genuine cycle participant. -/
theorem resolve_reachable_cycle_core (L : LockFile) (requested : List Artifact)
    (hreq : ∀ a ∈ requested, a ∈ L.artifacts)
    (hclosed : ClosedLock L)
    (hcyc : ∃ n, (∃ r ∈ requested, r.name = n ∨ NamePath L r.name n) ∧
      NamePath L n n) :
    ∃ c, Resolve L requested = .error (.cycleDetected c) ∧ NamePath L c c := by
  obtain ⟨n0, ⟨r, hr, hreach⟩, hloop⟩ := hcyc
  cases hres : Resolve L requested with
  | ok out =>
    exfalso
    have hres2 : visitMany L (requested.map Artifact.name) [] [] = .ok out := hres
    have hfl : FromLock L out :=
      visitMany_ok_fromLock L _ [] [] out hres2 (by intro b hb; cases hb)
    have htp : TopoOrdered out :=
      visitMany_ok_topo L _ [] [] out hres2 topoOrdered_nil
    have hnd : (namesOf out).Nodup :=
      visitMany_ok_nodup L _ [] [] out hres2 (by simp [namesOf])
    have hmem := visitMany_ok_mem L _ [] [] out hres2
    have hroot : r.name ∈ namesOf out :=
      hmem r.name (List.mem_map_of_mem Artifact.name hr)
    have hn0 : n0 ∈ namesOf out := by
      rcases hreach with hreach | hreach
      · exact hreach ▸ hroot
      · exact mem_of_path L hfl htp hreach hroot
    simp only [namesOf, List.mem_map] at hn0
    obtain ⟨b, hb, hbname⟩ := hn0
    obtain ⟨i, hi, hib⟩ := List.mem_iff_getElem.mp hb
    have hgname : (out.get ⟨i, hi⟩).name = n0 := by
      rw [List.get_eq_getElem, hib, hbname]
    obtain ⟨j, hj, hji, hjname⟩ := out_path_step L hfl htp hloop i hi hgname
    have hilen : i < (namesOf out).length := by simpa [namesOf] using hi
    have hjlen : j < (namesOf out).length := by simpa [namesOf] using hj
    have hgeti : (namesOf out).get ⟨i, hilen⟩ = n0 := by
      have h1 : (namesOf out).get ⟨i, hilen⟩ = (out.get ⟨i, hi⟩).name := by
        simp [namesOf, List.get_eq_getElem, List.getElem_map]
      rw [h1, hgname]
    have hgetj : (namesOf out).get ⟨j, hjlen⟩ = n0 := by
      have h1 : (namesOf out).get ⟨j, hjlen⟩ = (out.get ⟨j, hj⟩).name := by
        simp [namesOf, List.get_eq_getElem, List.getElem_map]
      rw [h1, hjname]
    have heq : (⟨i, hilen⟩ : Fin (namesOf out).length) = ⟨j, hjlen⟩ :=
      (List.Nodup.get_inj_iff hnd).mp (by rw [hgeti, hgetj])
    have : i = j := by
      have := Fin.mk.injEq i hilen j hjlen ▸ heq
      exact Fin.val_eq_of_eq heq
    omega
  | error e =>
    cases e with
    | cycleDetected c =>
      refine ⟨c, rfl, ?_⟩
      have hres2 : visitMany L (requested.map Artifact.name) [] [] =
        .error (.cycleDetected c) := hres
      exact visitMany_cycle L _ [] [] GreyChain.nil
        (by intro g gs hg; cases hg) c hres2
    | missingDependency m =>
      exfalso
      have hres2 : visitMany L (requested.map Artifact.name) [] [] =
        .error (.missingDependency m) := hres
      exact visitMany_ne_missing L hclosed _ [] []
        (roots_isSome L requested hreq) m hres2

/-- C2: for every lock file without dangling references containing a
dependency cycle reachable from the requested set, both `Resolve` and the
lock file's load-time dependency validation fail with a cycle error naming
an artifact that really lies on a cycle (and, being total Lean functions,
they terminate). -/
theorem resolve_cycle_error (L : LockFile) (requested : List Artifact)
    (hreq : ∀ a ∈ requested, a ∈ L.artifacts)
    (hclosed : ClosedLock L)
    (hcyc : ∃ n, (∃ r ∈ requested, r.name = n ∨ NamePath L r.name n) ∧
      NamePath L n n) :
    (∃ c, Resolve L requested = .error (.cycleDetected c) ∧ NamePath L c c) ∧
    (∃ c2, ValidateDependencies L = .error (.cycleDetected c2) ∧
      NamePath L c2 c2) := by
  refine ⟨resolve_reachable_cycle_core L requested hreq hclosed hcyc, ?_⟩
  obtain ⟨n0, _, hloop⟩ := hcyc
  obtain ⟨a, ha, haname⟩ := namePath_src_mem hloop
  have hcyc2 : ∃ n, (∃ r ∈ L.artifacts, r.name = n ∨ NamePath L r.name n) ∧
      NamePath L n n :=
    ⟨n0, ⟨a, ha, Or.inl haname⟩, hloop⟩
  obtain ⟨c2, hres, hp⟩ :=
    resolve_reachable_cycle_core L L.artifacts (fun _ hx => hx) hclosed hcyc2
  refine ⟨c2, ?_, hp⟩
  unfold ValidateDependencies
  rw [hres]

/-- Example lock file with the two-cycle a ↔ b, as in the repository's
`TestCircularDependencies`. -/
def lockCycEx : LockFile :=
  ⟨[⟨"a", "1.0.0", AType.skill, [⟨"b"⟩], []⟩,
    ⟨"b", "1.0.0", AType.skill, [⟨"a"⟩], []⟩]⟩

/-- Example request: the artifact a of `lockCycEx`. -/
def reqCycEx : List Artifact :=
  [⟨"a", "1.0.0", AType.skill, [⟨"b"⟩], []⟩]

/-- Witness for C2: on the concrete cyclic lock file, resolution of [a] and
load-time validation both report a cycle error naming a cycle participant. -/
theorem resolve_cycle_error_witness :
    (∃ c, Resolve lockCycEx reqCycEx = .error (.cycleDetected c) ∧
      NamePath lockCycEx c c) ∧
    (∃ c2, ValidateDependencies lockCycEx = .error (.cycleDetected c2) ∧
      NamePath lockCycEx c2 c2) :=
  resolve_cycle_error lockCycEx reqCycEx (by decide)
    (by unfold ClosedLock; decide)
    ⟨"a", ⟨⟨"a", "1.0.0", AType.skill, [⟨"b"⟩], []⟩, by decide, Or.inl rfl⟩,
      NamePath.cons (show Edge lockCycEx "a" "b" by unfold Edge; decide)
        (NamePath.single (show Edge lockCycEx "b" "a" by unfold Edge; decide))⟩

/-! ## Installation tracker -/

/-- A tracker entry (`artifacts.InstalledArtifact`): the record that an
artifact at a given scope is installed at a version for a set of clients.
`repository` empty means global; `path` empty unless path-scoped. -/
structure InstalledArtifact where
  name : String
  version : String
  repository : String
  path : String
  clients : List String
deriving DecidableEq, Repr

/-- The identity key of a tracker entry (`artifacts.ArtifactKey`):
name, repository and path, compared by exact string equality. -/
structure ArtifactKey where
  name : String
  repository : String
  path : String
deriving DecidableEq, Repr

/-- Modelled from the spec: `InstalledArtifact.Key` (tracker implementation
file absent): the entry's `(name, repository, path)` triple. -/
def InstalledArtifact.key (e : InstalledArtifact) : ArtifactKey :=
  ⟨e.name, e.repository, e.path⟩

/-- The installation tracker (`artifacts.Tracker`): format version plus the
list of installed-artifact records. -/
structure Tracker where
  version : String
  artifacts : List InstalledArtifact
deriving DecidableEq, Repr

/-- Modelled from the spec: `artifacts.NewArtifactKey` (implementation file
absent; pinned by `TestNewArtifactKey`): a global scope erases repository
and path, a repo scope keeps only the repository, a path scope keeps
both. -/
def NewArtifactKey (name : String) (stype : ScopeKind) (repoURL repoPath : String) :
    ArtifactKey :=
  match stype with
  | ScopeKind.global => ⟨name, "", ""⟩
  | ScopeKind.repo => ⟨name, repoURL, ""⟩
  | ScopeKind.path => ⟨name, repoURL, repoPath⟩

/-- Modelled from the spec: `Tracker.FindArtifact` (implementation file
absent): the entry whose key equals the queried key exactly. -/
def Tracker.FindArtifact (t : Tracker) (k : ArtifactKey) : Option InstalledArtifact :=
  t.artifacts.find? (fun e => decide (e.key = k))

/-- Modelled from the spec: `Tracker.UpsertArtifact` (implementation file
absent; §4.3 "insert or replace by AssetKey"). -/
def Tracker.UpsertArtifact (t : Tracker) (e : InstalledArtifact) : Tracker :=
  if t.artifacts.any (fun x => decide (x.key = e.key)) then
    ⟨t.version, t.artifacts.map (fun x => if x.key = e.key then e else x)⟩
  else
    ⟨t.version, t.artifacts ++ [e]⟩

/-- Modelled from the spec: `Tracker.RemoveArtifact` (implementation file
absent; §4.3: removal by key, reporting whether something was removed). -/
def Tracker.RemoveArtifact (t : Tracker) (k : ArtifactKey) : Tracker × Bool :=
  (⟨t.version, t.artifacts.filter (fun e => !(decide (e.key = k)))⟩,
   t.artifacts.any (fun e => decide (e.key = k)))

/-- Modelled from the spec: `Tracker.FindByScope` (implementation file
absent; §4.3: all entries exactly matching the scope pair). -/
def Tracker.FindByScope (t : Tracker) (repository path : String) :
    List InstalledArtifact :=
  t.artifacts.filter
    (fun e => decide (e.repository = repository) && decide (e.path = path))

/-- Modelled from the spec: `Tracker.NeedsInstall` (implementation file
absent; §4.3: true if no entry exists for the key, or the existing version
differs, or the existing client set does not contain every candidate
client). -/
def Tracker.NeedsInstall (t : Tracker) (k : ArtifactKey)
    (candidateVersion : String) (candidateClients : List String) : Bool :=
  match t.FindArtifact k with
  | none => true
  | some e =>
    decide (e.version ≠ candidateVersion) ||
      candidateClients.any (fun c => !(decide (c ∈ e.clients)))

/-- C3: `NeedsInstall` is false exactly when the tracker holds an entry at
the key with exactly the candidate version whose recorded client set
contains every candidate client (a superset check, not set equality). The
hypothesis is the §3 invariant of at most one entry per key. -/
theorem needsInstall_false_iff (t : Tracker) (k : ArtifactKey) (v : String)
    (cs : List String)
    (hinv : ∀ e1 ∈ t.artifacts, ∀ e2 ∈ t.artifacts, e1.key = e2.key → e1 = e2) :
    t.NeedsInstall k v cs = false ↔
      ∃ e ∈ t.artifacts, e.key = k ∧ e.version = v ∧ ∀ c ∈ cs, c ∈ e.clients := by
  unfold Tracker.NeedsInstall
  cases hf : t.FindArtifact k with
  | none =>
    simp only [iff_false, false_iff]
    constructor
    · intro h
      cases h
    · rintro ⟨e, he, hk, _, _⟩
      unfold Tracker.FindArtifact at hf
      have := List.find?_eq_none.mp hf e he
      simp [hk] at this
  | some e =>
    have hmem : e ∈ t.artifacts := by
      unfold Tracker.FindArtifact at hf
      exact List.mem_of_find?_eq_some hf
    have hkey : e.key = k := by
      unfold Tracker.FindArtifact at hf
      have hpred := List.find?_some hf
      simpa using hpred
    constructor
    · intro h
      simp only [Bool.or_eq_false_iff, decide_eq_false_iff_not, not_not,
        List.any_eq_false, Bool.not_eq_true', decide_eq_false_iff_not,
        not_not] at h
      exact ⟨e, hmem, hkey, h.1, h.2⟩
    · rintro ⟨e2, he2, hk2, hv2, hc2⟩
      have : e2 = e := hinv e2 he2 e hmem (hk2.trans hkey.symm)
      subst this
      simp only [Bool.or_eq_false_iff, decide_eq_false_iff_not, not_not,
        List.any_eq_false, Bool.not_eq_true', decide_eq_false_iff_not,
        not_not]
      exact ⟨hv2, hc2⟩

/-- Example tracker state matching the repository's `TestTrackerOperations`
after its remove step: a repo-scoped and a path-scoped entry. -/
def trackerEx : Tracker :=
  ⟨"1",
   [⟨"repo-skill", "2.0.0", "git@github.com:org/repo.git", "", ["cursor"]⟩,
    ⟨"path-skill", "3.0.0", "git@github.com:org/repo.git", "/services/api",
      ["claude-code", "cursor"]⟩]⟩

/-- Witness for C3: on the concrete tracker, an exact version and client
match needs no install, while a version bump or an absent entry does. -/
theorem needsInstall_false_iff_witness :
    trackerEx.NeedsInstall ⟨"repo-skill", "git@github.com:org/repo.git", ""⟩
      "2.0.0" ["cursor"] = false ∧
    trackerEx.NeedsInstall ⟨"repo-skill", "git@github.com:org/repo.git", ""⟩
      "2.1.0" ["cursor"] = true ∧
    trackerEx.NeedsInstall ⟨"test-skill", "", ""⟩ "1.0.0" ["claude-code"] = true :=
  ⟨(needsInstall_false_iff trackerEx
      ⟨"repo-skill", "git@github.com:org/repo.git", ""⟩ "2.0.0" ["cursor"]
      (by decide)).mpr
    ⟨⟨"repo-skill", "2.0.0", "git@github.com:org/repo.git", "", ["cursor"]⟩,
      by decide, by decide, by decide, by decide⟩,
   by decide, by decide⟩

/-! ## Multi-client install orchestrator (`internal/clients/orchestrator.go`) -/

/-- An opaque Go error value, identified by its message. -/
abbrev GoErr : Type := String

/-- Status of one artifact result (`clients.Status*`). -/
inductive ResultStatus where
  | success
  | failed
  | skipped
deriving DecidableEq, Repr

/-- One per-artifact result inside a client's response
(`clients.ArtifactResult`). -/
structure ArtifactResult where
  artifactName : String
  status : ResultStatus
  message : String
  error : Option GoErr
deriving DecidableEq, Repr

/-- A client's response to an install request (`clients.InstallResponse`). -/
structure InstallResponse where
  results : List ArtifactResult
deriving DecidableEq, Repr

/-- A client's response to an uninstall request
(`clients.UninstallResponse`). -/
structure UninstallResponse where
  results : List ArtifactResult
deriving DecidableEq, Repr

/-- The install scope passed to clients (`clients.InstallScope`). -/
structure InstallScope where
  stype : ScopeKind
  repoURL : String
  path : String
  repoRoot : String
deriving DecidableEq, Repr

/-- A bundle handed to client installers (`clients.ArtifactBundle`).
The parsed metadata and raw zip bytes of the Go struct do not affect
filtering or result aggregation and are omitted. -/
structure ArtifactBundle where
  artifact : Artifact
deriving DecidableEq, Repr

/-- Install options (`clients.InstallOptions`); no field of the Go struct
is consulted by the orchestrator. -/
structure InstallOptions where
deriving DecidableEq, Repr

/-- An install request handed to one client (`clients.InstallRequest`). -/
structure InstallRequest where
  artifacts : List ArtifactBundle
  scope : InstallScope
  options : InstallOptions

/-- A client as the orchestrator sees it (the `clients.Client` interface,
restricted to the methods `InstallToClients` consults): its ID, its
artifact-type support predicate, and its `InstallArtifacts` behaviour as a
function from the request to the response-and-error pair. -/
structure OClient where
  id : String
  supportsArtifactType : AType → Bool
  install : InstallRequest → InstallResponse × Option GoErr

/-- `Orchestrator.filterArtifacts` (from source): keep artifacts whose type
the client supports, skipping a non-global artifact when the install scope
is global. -/
def filterArtifacts (artifacts : List ArtifactBundle) (client : OClient)
    (scope : InstallScope) : List ArtifactBundle :=
  artifacts.foldl (fun compatible bundle =>
    if !(client.supportsArtifactType bundle.artifact.artifactType) then
      compatible
    else if !(bundle.artifact.IsGlobal) && decide (scope.stype = ScopeKind.global) then
      compatible
    else
      compatible ++ [bundle]) []

/-- The body of one client's goroutine in `Orchestrator.InstallToClients`
(from source): filter the batch; record a skipped result when nothing is
compatible; otherwise call the client and, when the call returns an error,
force-mark every result not already failed as failed, filling in the
call-level error where the result has none. -/
def processClient (artifacts : List ArtifactBundle) (scope : InstallScope)
    (options : InstallOptions) (client : OClient) : InstallResponse :=
  let compatibleArtifacts := filterArtifacts artifacts client scope
  if compatibleArtifacts.isEmpty then
    ⟨[⟨"", ResultStatus.skipped, "No compatible artifacts", none⟩]⟩
  else
    let callResult := client.install ⟨compatibleArtifacts, scope, options⟩
    match callResult.2 with
    | none => callResult.1
    | some err =>
      ⟨callResult.1.results.map (fun r =>
        if r.status ≠ ResultStatus.failed then
          ⟨r.artifactName, ResultStatus.failed, r.message,
            if r.error = none then some err else r.error⟩
        else r)⟩

/-- `Orchestrator.InstallToClients` (from source): run every client's
goroutine and merge the responses into a map keyed by client ID, modelled
as an association list in client order (the Go goroutines write disjoint
keys under a mutex, so the merged map does not depend on completion
order). -/
def InstallToClients (targetClients : List OClient)
    (artifacts : List ArtifactBundle) (scope : InstallScope)
    (options : InstallOptions) : List (String × InstallResponse) :=
  targetClients.map (fun client => (client.id, processClient artifacts scope options client))

/-- `clients.HasAnyErrors` (from source): some client has some result with
status failed. -/
def HasAnyErrors (results : List (String × InstallResponse)) : Bool :=
  results.any (fun p => p.2.results.any (fun r => decide (r.status = ResultStatus.failed)))

theorem filterArtifacts_foldl_acc (client : OClient) (scope : InstallScope) :
    ∀ (l : List ArtifactBundle) (acc : List ArtifactBundle),
      l.foldl (fun compatible bundle =>
        if !(client.supportsArtifactType bundle.artifact.artifactType) then
          compatible
        else if !(bundle.artifact.IsGlobal) &&
            decide (scope.stype = ScopeKind.global) then
          compatible
        else
          compatible ++ [bundle]) acc =
      acc ++ l.filter (fun b =>
        client.supportsArtifactType b.artifact.artifactType &&
          (b.artifact.IsGlobal || !(decide (scope.stype = ScopeKind.global)))) := by
  intro l
  induction l with
  | nil => intro acc; simp
  | cons x xs ih =>
    intro acc
    simp only [List.foldl_cons, List.filter_cons]
    cases hsup : client.supportsArtifactType x.artifact.artifactType with
    | false =>
      rw [if_pos (by simp [hsup]), ih acc, if_neg (by simp [hsup])]
    | true =>
      cases hglob : x.artifact.IsGlobal with
      | true =>
        rw [if_neg (by simp [hsup]), if_neg (by simp [hglob]), ih (acc ++ [x]),
          if_pos (by simp [hsup, hglob])]
        simp
      | false =>
        by_cases hscope : scope.stype = ScopeKind.global
        · rw [if_neg (by simp [hsup]), if_pos (by simp [hglob, hscope]), ih acc,
            if_neg (by simp [hglob, hscope])]
        · rw [if_neg (by simp [hsup]), if_neg (by simp [hscope]), ih (acc ++ [x]),
            if_pos (by simp [hsup, hglob, hscope])]
          simp

/-- C6 (amended): the per-client filter keeps exactly the artifacts whose
type the client supports and which are global or installed under a
non-global scope; the scope side of the check depends only on the install
scope's type, not on any per-client scope capability. -/
theorem filterArtifacts_characterization (artifacts : List ArtifactBundle)
    (client : OClient) (scope : InstallScope) :
    filterArtifacts artifacts client scope = artifacts.filter (fun b =>
      client.supportsArtifactType b.artifact.artifactType &&
        (b.artifact.IsGlobal || !(decide (scope.stype = ScopeKind.global)))) := by
  unfold filterArtifacts
  rw [filterArtifacts_foldl_acc client scope artifacts []]
  simp

/-- C10: the per-client filter delivers a subsequence of the input batch:
relative order of the dependency-ordered batch is preserved for every
client. -/
theorem filterArtifacts_sublist (artifacts : List ArtifactBundle)
    (client : OClient) (scope : InstallScope) :
    (filterArtifacts artifacts client scope).Sublist artifacts := by
  rw [filterArtifacts_characterization]
  exact List.filter_sublist artifacts

/-- Example client supporting every artifact type whose install reports
success for each artifact it receives. -/
def clientAllEx : OClient :=
  ⟨"c1", fun _ => true,
   fun req =>
     (⟨req.artifacts.map (fun b => ⟨b.artifact.name, ResultStatus.success, "", none⟩)⟩,
      none)⟩

/-- A repo-scoped (non-global) artifact bundle. -/
def bundleRepoEx : ArtifactBundle :=
  ⟨⟨"x", "1.0.0", AType.skill, [], [⟨"https://github.com/test/repo", []⟩]⟩⟩

/-- A global install scope. -/
def scopeGlobalEx : InstallScope := ⟨ScopeKind.global, "", "", ""⟩

/-- A repo install scope. -/
def scopeRepoEx : InstallScope :=
  ⟨ScopeKind.repo, "https://github.com/test/repo", "", "/repo"⟩

/-- Counterexample for C6: the same client and the same artifact are kept
under a repo install scope and dropped under a global one, so the filter's
keep-decision is not any per-client artifact compatibility predicate: no
predicate of the client and artifact alone reproduces `filterArtifacts`. -/
theorem filterArtifacts_not_client_determined :
    filterArtifacts [bundleRepoEx] clientAllEx scopeRepoEx = [bundleRepoEx] ∧
    filterArtifacts [bundleRepoEx] clientAllEx scopeGlobalEx = [] ∧
    ¬ ∃ P : OClient → ArtifactBundle → Bool,
      ∀ scope artifacts, filterArtifacts artifacts clientAllEx scope =
        artifacts.filter (fun b => P clientAllEx b) := by
  have h1 : filterArtifacts [bundleRepoEx] clientAllEx scopeRepoEx = [bundleRepoEx] := rfl
  have h2 : filterArtifacts [bundleRepoEx] clientAllEx scopeGlobalEx = [] := rfl
  refine ⟨h1, h2, ?_⟩
  rintro ⟨P, hP⟩
  have e1 := (hP scopeRepoEx [bundleRepoEx]).symm.trans h1
  have e2 := (hP scopeGlobalEx [bundleRepoEx]).symm.trans h2
  rw [e1] at e2
  cases e2

theorem lookup_installToClients (targetClients : List OClient)
    (artifacts : List ArtifactBundle) (scope : InstallScope)
    (options : InstallOptions)
    (hids : (targetClients.map OClient.id).Nodup)
    (c : OClient) (hc : c ∈ targetClients) :
    (InstallToClients targetClients artifacts scope options).lookup c.id =
      some (processClient artifacts scope options c) := by
  unfold InstallToClients
  induction targetClients with
  | nil => cases hc
  | cons d ds ih =>
    simp only [List.map_cons, List.lookup]
    by_cases hid : c.id = d.id
    · have hbeq : (c.id == d.id) = true := by simpa using hid
      rw [hbeq]
      have hcd : c = d := by
        rcases List.mem_cons.mp hc with h | h
        · exact h
        · exfalso
          simp only [List.map_cons, List.nodup_cons] at hids
          exact hids.1 (hid ▸ List.mem_map_of_mem OClient.id h)
      exact congrArg (fun x => some (processClient artifacts scope options x)) hcd.symm
    · have hbeq : (c.id == d.id) = false := by simpa using hid
      rw [hbeq]
      have hcds : c ∈ ds := by
        rcases List.mem_cons.mp hc with h | h
        · exact absurd (congrArg OClient.id h) hid
        · exact h
      simp only [List.map_cons, List.nodup_cons] at hids
      exact ih hids.2 hcds

/-- C5 (amended): when a client's `InstallArtifacts` call returns an error,
the merged results hold, for that client, its response with every result
not already failed re-marked failed — each such result carrying the
call-level error exactly when it had none of its own — and `HasAnyErrors`
detects the failure provided the erroring client's response contained at
least one result. -/
theorem installToClients_client_error (targetClients : List OClient)
    (artifacts : List ArtifactBundle) (scope : InstallScope)
    (options : InstallOptions)
    (hids : (targetClients.map OClient.id).Nodup)
    (c : OClient) (hc : c ∈ targetClients)
    (hne : filterArtifacts artifacts c scope ≠ [])
    (err : GoErr)
    (herr : (c.install ⟨filterArtifacts artifacts c scope, scope, options⟩).2 =
      some err) :
    ∃ resp, (InstallToClients targetClients artifacts scope options).lookup c.id =
        some resp ∧
      (∀ r ∈ resp.results, r.status = ResultStatus.failed) ∧
      resp.results.length =
        (c.install ⟨filterArtifacts artifacts c scope, scope, options⟩).1.results.length ∧
      (∀ i : Nat, ∀ r0 : ArtifactResult,
        (c.install ⟨filterArtifacts artifacts c scope, scope,
          options⟩).1.results[i]? = some r0 →
        resp.results[i]? = some (if r0.status ≠ ResultStatus.failed then
          ⟨r0.artifactName, ResultStatus.failed, r0.message,
            if r0.error = none then some err else r0.error⟩
        else r0)) ∧
      ((c.install ⟨filterArtifacts artifacts c scope, scope,
          options⟩).1.results ≠ [] →
        HasAnyErrors (InstallToClients targetClients artifacts scope options) = true) := by
  have hproc : processClient artifacts scope options c =
      ⟨(c.install ⟨filterArtifacts artifacts c scope, scope, options⟩).1.results.map
        (fun r =>
          if r.status ≠ ResultStatus.failed then
            ⟨r.artifactName, ResultStatus.failed, r.message,
              if r.error = none then some err else r.error⟩
          else r)⟩ := by
    unfold processClient
    rw [if_neg (by simpa [List.isEmpty_iff] using hne)]
    simp only [herr]
  refine ⟨processClient artifacts scope options c,
    lookup_installToClients targetClients artifacts scope options hids c hc,
    ?_, ?_, ?_, ?_⟩
  · intro r hr
    rw [hproc] at hr
    simp only [List.mem_map] at hr
    obtain ⟨r0, _, hr0⟩ := hr
    by_cases hst : r0.status = ResultStatus.failed
    · rw [if_neg (by simp [hst])] at hr0
      rw [← hr0]
      exact hst
    · rw [if_pos (by simp [hst])] at hr0
      rw [← hr0]
  · rw [hproc]
    simp
  · intro i r0 h0
    rw [hproc]
    simp only [List.getElem?_map, h0, Option.map_some]
    rfl
  · intro hres
    unfold HasAnyErrors
    rw [List.any_eq_true]
    refine ⟨(c.id, processClient artifacts scope options c), ?_, ?_⟩
    · unfold InstallToClients
      exact List.mem_map_of_mem _ hc
    · rw [List.any_eq_true]
      rw [hproc]
      cases hcase : (c.install ⟨filterArtifacts artifacts c scope, scope,
          options⟩).1.results with
      | nil => exact absurd hcase hres
      | cons r0 rs =>
        refine ⟨if r0.status ≠ ResultStatus.failed then
            ⟨r0.artifactName, ResultStatus.failed, r0.message,
              if r0.error = none then some err else r0.error⟩
          else r0, by simp, ?_⟩
        by_cases hst : r0.status = ResultStatus.failed
        · rw [if_neg (by simp [hst])]
          simp [hst]
        · rw [if_pos (by simp [hst])]
          simp

/-- A global (unscoped) artifact bundle. -/
def bundleGlobalEx : ArtifactBundle := ⟨⟨"g", "1.0.0", AType.skill, [], []⟩⟩

/-- Example client whose install call fails at the client level while
returning an empty result list. -/
def badClientEx : OClient := ⟨"bad", fun _ => true, fun _ => (⟨[]⟩, some "boom")⟩

/-- Counterexample for C5: a client whose `InstallArtifacts` call returns a
non-nil error together with an empty result list leaves nothing to
force-mark failed, and `HasAnyErrors` on the merged results is false: the
aggregate failure detector misses this systemic client failure. -/
theorem hasAnyErrors_misses_client_error :
    (badClientEx.install ⟨filterArtifacts [bundleGlobalEx] badClientEx scopeGlobalEx,
      scopeGlobalEx, ⟨⟩⟩).2 = some "boom" ∧
    filterArtifacts [bundleGlobalEx] badClientEx scopeGlobalEx = [bundleGlobalEx] ∧
    HasAnyErrors (InstallToClients [badClientEx] [bundleGlobalEx] scopeGlobalEx ⟨⟩) =
      false :=
  ⟨rfl, rfl, rfl⟩

/-- Example client whose install reports per-artifact success but whose
call returns a client-level error. -/
def errClientEx : OClient :=
  ⟨"e1", fun _ => true,
   fun req =>
     (⟨req.artifacts.map (fun b => ⟨b.artifact.name, ResultStatus.success, "", none⟩)⟩,
      some "client exploded")⟩

/-- Witness for C5 (amended): with one erroring client whose response holds
one result, the merged map marks it failed with the call-level error and
`HasAnyErrors` reports the failure. -/
theorem installToClients_client_error_witness :
    ∃ resp, (InstallToClients [errClientEx] [bundleGlobalEx] scopeGlobalEx
        ⟨⟩).lookup errClientEx.id = some resp ∧
      (∀ r ∈ resp.results, r.status = ResultStatus.failed) ∧
      resp.results.length =
        (errClientEx.install ⟨filterArtifacts [bundleGlobalEx] errClientEx
          scopeGlobalEx, scopeGlobalEx, ⟨⟩⟩).1.results.length ∧
      (∀ i : Nat, ∀ r0 : ArtifactResult,
        (errClientEx.install ⟨filterArtifacts [bundleGlobalEx] errClientEx
          scopeGlobalEx, scopeGlobalEx, ⟨⟩⟩).1.results[i]? = some r0 →
        resp.results[i]? = some (if r0.status ≠ ResultStatus.failed then
          ⟨r0.artifactName, ResultStatus.failed, r0.message,
            if r0.error = none then some "client exploded" else r0.error⟩
        else r0)) ∧
      ((errClientEx.install ⟨filterArtifacts [bundleGlobalEx] errClientEx
          scopeGlobalEx, scopeGlobalEx, ⟨⟩⟩).1.results ≠ [] →
        HasAnyErrors (InstallToClients [errClientEx] [bundleGlobalEx]
          scopeGlobalEx ⟨⟩) = true) :=
  installToClients_client_error [errClientEx] [bundleGlobalEx] scopeGlobalEx ⟨⟩
    (by decide) errClientEx (List.mem_singleton.mpr rfl) (by decide)
    "client exploded" rfl

/-! ## The install pass and reconciliation cleanup (install command) -/

/-- Aggregate result of one orchestration pass
(`artifacts.InstallResult`). -/
structure InstallResult where
  installed : List String
  failed : List String
  errors : List (Option GoErr)
deriving DecidableEq, Repr

/-- `processInstallationResults` (from source): walk every client's
results, collecting installed artifact names as a set and appending each
failed artifact's name and error; when any client reported a failure an
extra aggregate error is appended. Go iterates its result map in
unspecified order; modelled by iterating the association list in
construction order, with the installed set as a first-seen-ordered list. -/
def processInstallationResults (allResults : List (String × InstallResponse)) :
    InstallResult :=
  let collect := allResults.foldl (fun acc p =>
    p.2.results.foldl (fun acc2 r =>
      match r.status with
      | ResultStatus.success =>
        ⟨if r.artifactName ∈ acc2.installed then acc2.installed
          else acc2.installed ++ [r.artifactName],
         acc2.failed, acc2.errors⟩
      | ResultStatus.failed =>
        ⟨acc2.installed, acc2.failed ++ [r.artifactName],
         acc2.errors ++ [r.error]⟩
      | ResultStatus.skipped => acc2) acc) ⟨[], [], []⟩
  if HasAnyErrors allResults then
    ⟨collect.installed, collect.failed,
     collect.errors ++ [some "installation failed for one or more clients"]⟩
  else collect

/-- `saveInstallationState` (from source, `runInstall`): upsert a tracker
entry for every artifact of the resolved set — not just the changed or
successfully installed ones — recording the lock-file version and the full
target client list under the current scope's key. The subsequent
`SaveTracker` persistence step is outside the model. -/
def saveInstallationState (t : Tracker) (sortedArtifacts : List Artifact)
    (currentScope : CtxScope) (targetClientIDs : List String) : Tracker :=
  sortedArtifacts.foldl (fun tr art =>
    tr.UpsertArtifact
      ⟨art.name, art.version,
       (NewArtifactKey art.name currentScope.stype currentScope.repoURL
         currentScope.repoPath).repository,
       (NewArtifactKey art.name currentScope.stype currentScope.repoURL
         currentScope.repoPath).path,
       targetClientIDs⟩) t

/-- The install-then-save phase of `runInstall` (from source, the lines
calling `installArtifacts` and then unconditionally
`saveInstallationState`): run the multi-client installation on the fetched
bundles and save the state of every artifact of the resolved set. -/
def installPass (t : Tracker) (sortedArtifacts : List Artifact)
    (downloads : List ArtifactBundle) (currentScope : CtxScope)
    (targetClientIDs : List String) (targetClients : List OClient)
    (iscope : InstallScope) (options : InstallOptions) :
    InstallResult × Tracker :=
  (processInstallationResults (InstallToClients targetClients downloads iscope options),
   saveInstallationState t sortedArtifacts currentScope targetClientIDs)

/-- The entries the reconciliation cleanup deems removed: tracked under the
current scope's key but absent from the lock file's resolved set (from
source, `cleanupRemovedArtifacts`). -/
def removedInScope (t : Tracker) (sortedArtifacts : List Artifact)
    (currentScope : CtxScope) : List InstalledArtifact :=
  (t.FindByScope
    (NewArtifactKey "" currentScope.stype currentScope.repoURL
      currentScope.repoPath).repository
    (NewArtifactKey "" currentScope.stype currentScope.repoURL
      currentScope.repoPath).path).filter
    (fun e => !(decide (e.name ∈ sortedArtifacts.map Artifact.name)))

/-- `cleanupRemovedArtifacts` (from source): compute the removed entries;
when there are any, call every client's `UninstallArtifacts` (whose
responses and errors are only logged) and then remove every removed entry
from the tracker unconditionally. Returns the updated tracker together
with the per-client call outcomes. -/
def cleanupRemovedArtifacts (t : Tracker) (sortedArtifacts : List Artifact)
    (currentScope : CtxScope) (targetClients : List String)
    (uninstallOutcome : String → UninstallResponse × Option GoErr) :
    Tracker × List (String × (UninstallResponse × Option GoErr)) :=
  if (removedInScope t sortedArtifacts currentScope).isEmpty then (t, [])
  else
    ((removedInScope t sortedArtifacts currentScope).foldl
      (fun tr e => (tr.RemoveArtifact e.key).1) t,
     targetClients.map (fun c => (c, uninstallOutcome c)))

theorem findArtifact_remove_self (t : Tracker) (k : ArtifactKey) :
    ((t.RemoveArtifact k).1).FindArtifact k = none := by
  unfold Tracker.RemoveArtifact Tracker.FindArtifact
  simp only []
  rw [List.find?_eq_none]
  intro e he
  have := List.of_mem_filter he
  simp only [Bool.not_eq_true', decide_eq_false_iff_not] at this
  simpa using this

theorem findArtifact_none_remove (t : Tracker) (k k2 : ArtifactKey)
    (h : t.FindArtifact k = none) :
    ((t.RemoveArtifact k2).1).FindArtifact k = none := by
  unfold Tracker.FindArtifact at h
  unfold Tracker.RemoveArtifact Tracker.FindArtifact
  simp only []
  rw [List.find?_eq_none] at h ⊢
  intro e he
  exact h e (List.mem_of_mem_filter he)

theorem findArtifact_fold_remove_preserve (l : List InstalledArtifact)
    (t : Tracker) (k : ArtifactKey) (h : t.FindArtifact k = none) :
    (l.foldl (fun tr e => (tr.RemoveArtifact e.key).1) t).FindArtifact k = none := by
  induction l generalizing t with
  | nil => exact h
  | cons x xs ih =>
    exact ih ((t.RemoveArtifact x.key).1) (findArtifact_none_remove t k x.key h)

theorem findArtifact_fold_remove_none (l : List InstalledArtifact)
    (t : Tracker) {e : InstalledArtifact} (he : e ∈ l) :
    (l.foldl (fun tr x => (tr.RemoveArtifact x.key).1) t).FindArtifact e.key = none := by
  induction l generalizing t with
  | nil => cases he
  | cons x xs ih =>
    rcases List.mem_cons.mp he with h | h
    · subst h
      exact findArtifact_fold_remove_preserve xs _ e.key
        (findArtifact_remove_self t e.key)
    · exact ih ((t.RemoveArtifact x.key).1) h

/-- C9: the reconciliation cleanup removes the tracker entry of every
artifact tracked under the current scope but absent from the lock file,
and the resulting tracker does not depend on the clients'
`UninstallArtifacts` responses or errors: a failed or erroring uninstall
still deletes the record. -/
theorem cleanup_removes_unconditionally (t : Tracker)
    (sortedArtifacts : List Artifact) (currentScope : CtxScope)
    (targetClients : List String)
    (f g : String → UninstallResponse × Option GoErr) :
    (∀ e ∈ removedInScope t sortedArtifacts currentScope,
      ((cleanupRemovedArtifacts t sortedArtifacts currentScope targetClients
        f).1).FindArtifact e.key = none) ∧
    (cleanupRemovedArtifacts t sortedArtifacts currentScope targetClients f).1 =
      (cleanupRemovedArtifacts t sortedArtifacts currentScope targetClients g).1 := by
  constructor
  · intro e he
    unfold cleanupRemovedArtifacts
    rw [if_neg (by
      intro hemp
      rw [List.isEmpty_iff] at hemp
      rw [hemp] at he
      cases he)]
    exact findArtifact_fold_remove_none _ t he
  · unfold cleanupRemovedArtifacts
    by_cases hemp : (removedInScope t sortedArtifacts currentScope).isEmpty
    · rw [if_pos hemp, if_pos hemp]
    · rw [if_neg hemp, if_neg hemp]

/-- Tracker holding a stale global entry (old-skill) plus a still-current
one (keep-skill). -/
def trackerStaleEx : Tracker :=
  ⟨"1",
   [⟨"old-skill", "1.0.0", "", "", ["claude-code"]⟩,
    ⟨"keep-skill", "1.0.0", "", "", ["claude-code"]⟩]⟩

/-- The lock file's resolved set for the cleanup example: keep-skill only. -/
def sortedKeepEx : List Artifact := [⟨"keep-skill", "1.0.0", AType.skill, [], []⟩]

/-- The global working context. -/
def ctxGlobalEx : CtxScope := ⟨ScopeKind.global, "", ""⟩

/-- An uninstall behaviour whose call errors and reports a failed result. -/
def uninstallFailEx : String → UninstallResponse × Option GoErr :=
  fun _ => (⟨[⟨"old-skill", ResultStatus.failed, "", some "io error"⟩]⟩,
    some "client call failed")

/-- An uninstall behaviour that succeeds. -/
def uninstallOkEx : String → UninstallResponse × Option GoErr :=
  fun _ => (⟨[⟨"old-skill", ResultStatus.success, "", none⟩]⟩, none)

/-- Witness for C9: the stale entry is removed from the tracker even when
every client's uninstall call errors, and the tracker equals the one
produced under fully successful uninstalls. -/
theorem cleanup_removes_unconditionally_witness :
    (∀ e ∈ removedInScope trackerStaleEx sortedKeepEx ctxGlobalEx,
      ((cleanupRemovedArtifacts trackerStaleEx sortedKeepEx ctxGlobalEx
        ["claude-code"] uninstallFailEx).1).FindArtifact e.key = none) ∧
    (cleanupRemovedArtifacts trackerStaleEx sortedKeepEx ctxGlobalEx
      ["claude-code"] uninstallFailEx).1 =
      (cleanupRemovedArtifacts trackerStaleEx sortedKeepEx ctxGlobalEx
        ["claude-code"] uninstallOkEx).1 :=
  cleanup_removes_unconditionally trackerStaleEx sortedKeepEx ctxGlobalEx
    ["claude-code"] uninstallFailEx uninstallOkEx

theorem find?_map_replace (l : List InstalledArtifact) (e : InstalledArtifact)
    (hany : l.any (fun x => decide (x.key = e.key)) = true) :
    (l.map (fun x => if x.key = e.key then e else x)).find?
      (fun x => decide (x.key = e.key)) = some e := by
  induction l with
  | nil => cases hany
  | cons y ys ih =>
    simp only [List.map_cons]
    by_cases hk : y.key = e.key
    · rw [if_pos hk]
      rw [List.find?_cons_of_pos _ (by simp)]
    · rw [if_neg hk]
      rw [List.find?_cons_of_neg _ (by simpa using hk)]
      apply ih
      simp only [List.any_cons] at hany
      simpa [hk] using hany

theorem findArtifact_upsert_self (t : Tracker) (e : InstalledArtifact) :
    (t.UpsertArtifact e).FindArtifact e.key = some e := by
  unfold Tracker.UpsertArtifact Tracker.FindArtifact
  by_cases hany : t.artifacts.any (fun x => decide (x.key = e.key)) = true
  · rw [if_pos hany]
    exact find?_map_replace t.artifacts e hany
  · rw [if_neg hany]
    simp only []
    rw [List.find?_append]
    have hnone : t.artifacts.find? (fun x => decide (x.key = e.key)) = none := by
      rw [List.find?_eq_none]
      intro x hx hdx
      exact hany (List.any_eq_true.mpr ⟨x, hx, hdx⟩)
    rw [hnone]
    rw [List.find?_cons_of_pos _ (by simp)]
    rfl

theorem find?_map_replace_other (l : List InstalledArtifact)
    (e : InstalledArtifact) (k : ArtifactKey) (hne : k ≠ e.key) :
    (l.map (fun x => if x.key = e.key then e else x)).find?
      (fun x => decide (x.key = k)) =
    l.find? (fun x => decide (x.key = k)) := by
  induction l with
  | nil => rfl
  | cons y ys ih =>
    simp only [List.map_cons]
    by_cases hk : y.key = e.key
    · rw [if_pos hk]
      rw [List.find?_cons_of_neg _ (by
        simp only [decide_eq_true_eq]
        intro h
        exact hne (h ▸ rfl))]
      rw [List.find?_cons_of_neg _ (by
        simp only [decide_eq_true_eq]
        intro h
        exact hne ((hk ▸ h : y.key = k) ▸ hk ▸ rfl))]
      exact ih
    · rw [if_neg hk]
      by_cases hp : y.key = k
      · rw [List.find?_cons_of_pos _ (by simpa using hp),
          List.find?_cons_of_pos _ (by simpa using hp)]
      · rw [List.find?_cons_of_neg _ (by simpa using hp),
          List.find?_cons_of_neg _ (by simpa using hp)]
        exact ih

theorem findArtifact_upsert_other (t : Tracker) (e : InstalledArtifact)
    (k : ArtifactKey) (hne : k ≠ e.key) :
    (t.UpsertArtifact e).FindArtifact k = t.FindArtifact k := by
  unfold Tracker.UpsertArtifact Tracker.FindArtifact
  by_cases hany : t.artifacts.any (fun x => decide (x.key = e.key)) = true
  · rw [if_pos hany]
    exact find?_map_replace_other t.artifacts e k hne
  · rw [if_neg hany]
    simp only []
    rw [List.find?_append]
    rw [List.find?_cons_of_neg _ (by
      simp only [decide_eq_true_eq]
      intro h
      exact hne h.symm)]
    simp

theorem NewArtifactKey_name (n : String) (s : ScopeKind) (u p : String) :
    (NewArtifactKey n s u p).name = n := by
  cases s <;> rfl

theorem entryKey_eq (a : Artifact) (cs : CtxScope) (ids : List String) :
    (⟨a.name, a.version,
      (NewArtifactKey a.name cs.stype cs.repoURL cs.repoPath).repository,
      (NewArtifactKey a.name cs.stype cs.repoURL cs.repoPath).path,
      ids⟩ : InstalledArtifact).key =
    NewArtifactKey a.name cs.stype cs.repoURL cs.repoPath := by
  cases h : cs.stype <;> simp [InstalledArtifact.key, NewArtifactKey, h]

theorem findArtifact_save_absent (sorted : List Artifact) (t : Tracker)
    (cs : CtxScope) (ids : List String) (k : ArtifactKey)
    (h : k.name ∉ sorted.map Artifact.name) :
    (saveInstallationState t sorted cs ids).FindArtifact k = t.FindArtifact k := by
  induction sorted generalizing t with
  | nil => rfl
  | cons a rest ih =>
    have hstep : saveInstallationState t (a :: rest) cs ids =
        saveInstallationState
          (t.UpsertArtifact
            ⟨a.name, a.version,
             (NewArtifactKey a.name cs.stype cs.repoURL cs.repoPath).repository,
             (NewArtifactKey a.name cs.stype cs.repoURL cs.repoPath).path,
             ids⟩) rest cs ids := by
      simp only [saveInstallationState, List.foldl_cons]
    rw [hstep]
    have hrest : k.name ∉ rest.map Artifact.name := by
      simp only [List.map_cons, List.mem_cons, not_or] at h
      exact h.2
    have hhead : k.name ≠ a.name := by
      simp only [List.map_cons, List.mem_cons, not_or] at h
      exact h.1
    rw [ih _ hrest]
    apply findArtifact_upsert_other
    intro hk
    apply hhead
    have := congrArg ArtifactKey.name hk
    rw [entryKey_eq a cs ids, NewArtifactKey_name] at this
    exact this

theorem findArtifact_save_mem (sorted : List Artifact) (t : Tracker)
    (cs : CtxScope) (ids : List String)
    (hnd : (sorted.map Artifact.name).Nodup) :
    ∀ a ∈ sorted,
      (saveInstallationState t sorted cs ids).FindArtifact
        (NewArtifactKey a.name cs.stype cs.repoURL cs.repoPath) =
      some ⟨a.name, a.version,
        (NewArtifactKey a.name cs.stype cs.repoURL cs.repoPath).repository,
        (NewArtifactKey a.name cs.stype cs.repoURL cs.repoPath).path, ids⟩ := by
  induction sorted generalizing t with
  | nil =>
    intro a ha
    cases ha
  | cons x rest ih =>
    intro a ha
    have hstep : saveInstallationState t (x :: rest) cs ids =
        saveInstallationState
          (t.UpsertArtifact
            ⟨x.name, x.version,
             (NewArtifactKey x.name cs.stype cs.repoURL cs.repoPath).repository,
             (NewArtifactKey x.name cs.stype cs.repoURL cs.repoPath).path,
             ids⟩) rest cs ids := by
      simp only [saveInstallationState, List.foldl_cons]
    rw [hstep]
    rcases List.mem_cons.mp ha with h | h
    · subst h
      have hnotin : (NewArtifactKey a.name cs.stype cs.repoURL cs.repoPath).name ∉
          rest.map Artifact.name := by
        rw [NewArtifactKey_name]
        simp only [List.map_cons, List.nodup_cons] at hnd
        exact hnd.1
      rw [findArtifact_save_absent rest _ cs ids _ hnotin]
      have hself := findArtifact_upsert_self t
        ⟨a.name, a.version,
         (NewArtifactKey a.name cs.stype cs.repoURL cs.repoPath).repository,
         (NewArtifactKey a.name cs.stype cs.repoURL cs.repoPath).path,
         ids⟩
      rw [entryKey_eq a cs ids] at hself
      exact hself
    · simp only [List.map_cons, List.nodup_cons] at hnd
      exact ih _ hnd.2 a h

/-- C4 (amended): after the install-then-save phase of a pass, the tracker
entry of every artifact of the resolved set records that artifact's
lock-file version and the full target client list under the current
scope's key — regardless of the download or per-client install outcomes,
so a failed artifact's entry is overwritten rather than preserved. -/
theorem installPass_tracker_records_lock_state (t : Tracker)
    (sorted : List Artifact) (downloads : List ArtifactBundle)
    (cs : CtxScope) (ids : List String) (targetClients : List OClient)
    (iscope : InstallScope) (options : InstallOptions)
    (hnd : (sorted.map Artifact.name).Nodup) :
    ∀ a ∈ sorted,
      ((installPass t sorted downloads cs ids targetClients iscope
        options).2).FindArtifact
        (NewArtifactKey a.name cs.stype cs.repoURL cs.repoPath) =
      some ⟨a.name, a.version,
        (NewArtifactKey a.name cs.stype cs.repoURL cs.repoPath).repository,
        (NewArtifactKey a.name cs.stype cs.repoURL cs.repoPath).path, ids⟩ :=
  findArtifact_save_mem sorted t cs ids hnd

/-- Example client whose install fails every artifact it receives. -/
def failClientEx : OClient :=
  ⟨"cc", fun _ => true,
   fun req =>
     (⟨req.artifacts.map
        (fun b => ⟨b.artifact.name, ResultStatus.failed, "", some "write failed"⟩)⟩,
      none)⟩

/-- Tracker before the C4 example pass: x installed at version 1.0.0. -/
def trackerBeforeEx : Tracker := ⟨"1", [⟨"x", "1.0.0", "", "", ["cc"]⟩]⟩

/-- The lock file's new version of x. -/
def artifactXv2 : Artifact := ⟨"x", "2.0.0", AType.skill, [], []⟩

/-- Counterexample for C4: in a pass where artifact x fails to install
(it appears in the result's failed list), the tracker entry for x is not
what it was before the attempt: the pass overwrites it with the new
lock-file version anyway. -/
theorem installPass_overwrites_failed_entry :
    "x" ∈ (installPass trackerBeforeEx [artifactXv2] [⟨artifactXv2⟩] ctxGlobalEx
      ["cc"] [failClientEx] scopeGlobalEx ⟨⟩).1.failed ∧
    trackerBeforeEx.FindArtifact ⟨"x", "", ""⟩ =
      some ⟨"x", "1.0.0", "", "", ["cc"]⟩ ∧
    (installPass trackerBeforeEx [artifactXv2] [⟨artifactXv2⟩] ctxGlobalEx
      ["cc"] [failClientEx] scopeGlobalEx ⟨⟩).2.FindArtifact ⟨"x", "", ""⟩ =
      some ⟨"x", "2.0.0", "", "", ["cc"]⟩ := by
  refine ⟨by decide, rfl, rfl⟩

/-- Witness for C4 (amended): the concrete failed pass leaves x's entry at
the new lock-file version with the target client list. -/
theorem installPass_tracker_records_lock_state_witness :
    (installPass trackerBeforeEx [artifactXv2] [⟨artifactXv2⟩] ctxGlobalEx
      ["cc"] [failClientEx] scopeGlobalEx ⟨⟩).2.FindArtifact
      (NewArtifactKey "x" ScopeKind.global "" "") =
      some ⟨"x", "2.0.0", (NewArtifactKey "x" ScopeKind.global "" "").repository,
        (NewArtifactKey "x" ScopeKind.global "" "").path, ["cc"]⟩ :=
  installPass_tracker_records_lock_state trackerBeforeEx [artifactXv2]
    [⟨artifactXv2⟩] ctxGlobalEx ["cc"] [failClientEx] scopeGlobalEx ⟨⟩
    (by decide) artifactXv2 (by decide)

end Skills
